import Mathlib

/-!
A shallow embedding of the block-range caching engine of pCacheFS
(`src/pcachefs/pcachefs.py`), with proofs about its behaviour.

Modelling conventions:
* File contents are `List Nat` (one natural per byte).  The Python 2 file
  calls the source makes (`seek`, `read`, `write`, creating a sparse file)
  are explicit list manipulations with their OS semantics.
* Fallible operations return `Except Err`; a raised Python exception is an
  `Except.error`.  The on-disk state at the moment of an exception is not
  tracked, since no property below depends on it.
* Each operation additionally returns the ordered list of origin calls and
  durable local writes it performs, as a `List Event`.
* The embedding models the cache artifacts of one logical path: the engine
  is per-path (no operation reads or writes another path's blobs), so a
  single `CacheEntry` captures everything an operation can touch.
* `ranges.py`, `vfs.py` and `pcachefsutil.py` are imported by the source
  but are not part of it; the definitions taken from them carry a
  `Modelled from the spec:` doc comment and follow the spec's wording.
-/

/-- Errors the embedded operations can raise. -/
inductive Err where
  /-- A required file (cache blob or origin file) does not exist. -/
  | noEnt
  /-- A `seek` to a negative offset (Python 2 `IOError`). -/
  | seekInvalid
  /-- The `Range` constructor was given `end ≤ start`. -/
  | invalidRange
deriving DecidableEq

/-- Origin calls and durable local writes, recorded in the order an
operation performs them. -/
inductive Event where
  /-- `UnderlyingFs.getattr` (an `os.stat` on the origin). -/
  | originGetattr
  /-- `UnderlyingFs.readdir` (an `os.listdir` on the origin). -/
  | originReaddir
  /-- `UnderlyingFs.read` of `size` bytes at `offset` from the origin. -/
  | originRead (size offset : Nat)
  /-- Creating the sparse `cache.data` file (one zero byte at `size - 1`). -/
  | extendData
  /-- Splicing `len` bytes into `cache.data` at `offset`. -/
  | writeData (offset len : Nat)
  /-- Pickling the range set into `cache.data.range`. -/
  | writeRanges
  /-- Deleting `cache.data.range` (`os.remove`). -/
  | removeRanges
  /-- Pickling the stat record into `cache.stat`. -/
  | writeStat
  /-- Pickling the directory listing into `cache.list`. -/
  | writeList
deriving DecidableEq

def Event.isOriginRead : Event → Bool
  | .originRead _ _ => true
  | _ => false

def Event.isWriteData : Event → Bool
  | .writeData _ _ => true
  | _ => false

def Event.isWriteRanges : Event → Bool
  | .writeRanges => true
  | _ => false

def Event.isExtendData : Event → Bool
  | .extendData => true
  | _ => false

abbrev Byte := Nat

/-- A half-open interval of file offsets: first component the start,
second the end. -/
abbrev Rng := Nat × Nat

/-- Modelled from the spec: the `Range` constructor of `ranges.py`, which is
imported by `pcachefs.py` but not under `src/`.  Per spec section 4.1 it fails
with `InvalidRange` when the end is at most the start (offsets here are
naturals, so the negativity check cannot fire). -/
def mkRange (s e : Nat) : Except Err Rng :=
  if e ≤ s then .error .invalidRange else .ok (s, e)

/-- Whether offset `i` lies in the half-open interval `r`. -/
def inR (r : Rng) (i : Nat) : Bool :=
  decide (r.1 ≤ i) && decide (i < r.2)

/-- Whether offset `i` is covered by some member of the range set. -/
def covers (s : List Rng) (i : Nat) : Bool :=
  s.any (fun r => inR r i)

/-- Canonical form of a range set, relative to a lower bound `lb`: members in
ascending order, each nonempty, pairwise disjoint and non-adjacent (spec
section 3: a `RangeSet` is canonicalized so that no two members overlap or
touch and members are sorted by start). -/
def wfFrom (lb : Nat) : List Rng → Bool
  | [] => true
  | r :: rest => decide (lb ≤ r.1) && decide (r.1 < r.2) && wfFrom (r.2 + 1) rest

def wfRanges (s : List Rng) : Bool := wfFrom 0 s

/-- Modelled from the spec: `Ranges.get_uncovered_portions` of `ranges.py`
(not under `src/`).  Spec section 4.1: it returns the ordered list of maximal
sub-ranges of the query `[a, b)` that are not covered by the set; the result
is empty iff the query is fully covered. -/
def get_uncovered_portions : List Rng → Nat → Nat → List Rng
  | [], a, b => if a < b then [(a, b)] else []
  | (s, e) :: rest, a, b =>
      if b ≤ s then (if a < b then [(a, b)] else [])
      else if e ≤ a then get_uncovered_portions rest a b
      else (if a < s then [(a, s)] else []) ++ get_uncovered_portions rest e b

/-- Modelled from the spec: `Ranges.add` of `ranges.py` (not under `src/`).
Spec section 4.1: adding a range yields a new set covering every previously
covered offset plus the new range, re-canonicalized with overlapping and
touching members merged. -/
def addRange : List Rng → Rng → List Rng
  | [], r => [r]
  | (s, e) :: rest, r =>
      if r.2 < s then r :: (s, e) :: rest
      else if e < r.1 then (s, e) :: addRange rest r
      else addRange rest (min s r.1, max e r.2)

/-- Modelled from the spec: `Ranges.add_ranges` of `ranges.py` (not under
`src/`): add each range of the list in turn. -/
def add_ranges (s : List Rng) (rs : List Rng) : List Rng :=
  rs.foldl addRange s

/-- Python `f.seek(offset); f.read(size)` on contents `f`: up to `size`
bytes starting at `offset`, fewer only at end of file. -/
def fileRead (f : List Byte) (size offset : Nat) : List Byte :=
  (f.drop offset).take size

/-- Pad a file with NUL bytes up to length `n` (no-op if already longer). -/
def padTo (f : List Byte) (n : Nat) : List Byte :=
  f ++ List.replicate (n - f.length) 0

/-- Python `f.seek(pos); f.write(data)`: overwrite in place, zero-padding any
gap between the old end of file and `pos`.  Writing no bytes leaves the file
unchanged (a bare seek does not extend it). -/
def writeAt (f : List Byte) (pos : Nat) (data : List Byte) : List Byte :=
  if data.isEmpty then f
  else (padTo f pos).take pos ++ data ++ f.drop (pos + data.length)

/-- The frozen stat snapshot (`FuseStat`).  Only `st_size` is ever read by
the engine; the other copied fields play no role in any property and are
elided. -/
structure FuseStat where
  st_size : Nat
deriving DecidableEq

/-- The origin tree at the single logical path under study, as seen by
`UnderlyingFs`: the file's bytes (absent if the path does not exist as a
file), the `os.listdir` entries (absent if listing raises), and whether the
path is a directory. -/
structure UnderlyingFs where
  file : Option (List Byte)
  dirents : Option (List String)
  isDir : Bool
deriving DecidableEq

/-- `UnderlyingFs.getattr`: `os.stat` on the origin file; its `st_size` is
the file's byte length. -/
def UnderlyingFs.getattr (u : UnderlyingFs) : Option FuseStat :=
  u.file.map (fun content => ⟨content.length⟩)

/-- `UnderlyingFs.readdir`: `.` and `..` when the target is a directory,
then the `os.listdir` entries. -/
def UnderlyingFs.readdir (u : UnderlyingFs) : Option (List String) :=
  u.dirents.map (fun l => (if u.isDir then [".", ".."] else []) ++ l)

/-- `UnderlyingFs.read`: open the origin file (failing if absent), seek to
`offset` and read `size` bytes. -/
def UnderlyingFs.read (u : UnderlyingFs) (size offset : Nat) : Except Err (List Byte) :=
  match u.file with
  | none => .error .noEnt
  | some content => .ok (fileRead content size offset)

/-- The four per-path artifacts under the cache root: `cache.data`,
`cache.data.range`, `cache.stat`, `cache.list`; `none` means the blob does
not exist on disk. -/
structure CacheEntry where
  data : Option (List Byte)
  dataRange : Option (List Rng)
  stat : Option FuseStat
  list : Option (List String)
deriving DecidableEq

/-- The `Cacher` object's state: the path's cache artifacts and the
`cache_only_mode` flag. -/
structure Cacher where
  entry : CacheEntry
  cache_only_mode : Bool
deriving DecidableEq

def Cacher.cache_only_mode_enable (c : Cacher) : Cacher :=
  { c with cache_only_mode := true }

def Cacher.cache_only_mode_disable (c : Cacher) : Cacher :=
  { c with cache_only_mode := false }

/-- `Cacher.get_cached_blocks`: unpickle `cache.data.range`, or a fresh empty
`Ranges()` if the blob does not exist. -/
def Cacher.get_cached_blocks (c : Cacher) : List Rng :=
  match c.entry.dataRange with
  | some r => r
  | none => []

/-- `Cacher.update_cached_blocks`: pickle the given range set into
`cache.data.range`. -/
def Cacher.update_cached_blocks (c : Cacher) (cached_blocks : List Rng) :
    Cacher × List Event :=
  ({ c with entry := { c.entry with dataRange := some cached_blocks } },
   [Event.writeRanges])

/-- `Cacher.remove_cached_blocks`: `os.remove` of `cache.data.range`, which
raises when the blob does not exist. -/
def Cacher.remove_cached_blocks (c : Cacher) : Except Err (Cacher × List Event) :=
  match c.entry.dataRange with
  | none => .error .noEnt
  | some _ =>
      .ok ({ c with entry := { c.entry with dataRange := none } },
           [Event.removeRanges])

/-- `Cacher.get_cached_data`: open `cache.data` (failing if absent), seek to
`offset` and read `size` bytes. -/
def Cacher.get_cached_data (c : Cacher) (size offset : Nat) : Except Err (List Byte) :=
  match c.entry.data with
  | none => .error .noEnt
  | some d => .ok (fileRead d size offset)

/-- `Cacher.getattr`: return the pickled `cache.stat` if present; otherwise
fetch from the origin, pickle it, and return it. -/
def Cacher.getattr (c : Cacher) (u : UnderlyingFs) :
    Except Err (FuseStat × Cacher × List Event) :=
  match c.entry.stat with
  | some st => .ok (st, c, [])
  | none =>
      match u.getattr with
      | none => .error .noEnt
      | some st =>
          .ok (st, { c with entry := { c.entry with stat := some st } },
               [Event.originGetattr, Event.writeStat])

/-- `Cacher.readdir`: return the pickled `cache.list` if present; otherwise
list the origin, pickle the listing, and return it.  The `offset` argument is
passed through to the underlying filesystem, which ignores it. -/
def Cacher.readdir (c : Cacher) (u : UnderlyingFs) (_offset : Nat) :
    Except Err (List String × Cacher × List Event) :=
  match c.entry.list with
  | some l => .ok (l, c, [])
  | none =>
      match u.readdir with
      | none => .error .noEnt
      | some l =>
          .ok (l, { c with entry := { c.entry with list := some l } },
               [Event.originReaddir, Event.writeList])

/-- `Cacher.init_cached_data`: if `cache.data` already exists do nothing;
otherwise obtain the stat (via `Cacher.getattr`), create the file empty
(`open` with mode `wb` plus `truncate`), seek to `st_size - 1` and write one
NUL byte.  For a zero-size file the seek target is `-1`, which raises. -/
def Cacher.init_cached_data (c : Cacher) (u : UnderlyingFs) :
    Except Err (Cacher × List Event) :=
  match c.entry.data with
  | some _ => .ok (c, [])
  | none =>
      match Cacher.getattr c u with
      | .error e => .error e
      | .ok (file_stat, c1, ev1) =>
          if file_stat.st_size = 0 then .error .seekInvalid
          else
            .ok ({ c1 with entry := { c1.entry with
                     data := some (writeAt [] (file_stat.st_size - 1) [0]) } },
                 ev1 ++ [Event.extendData])

/-- The fetch-and-splice loop inside `Cacher.update_cached_data`: for each
block, read it from the origin and write the returned bytes into the open
`cache.data` file at the block's start offset. -/
def Cacher.spliceLoop (u : UnderlyingFs) (f : List Byte) :
    List Rng → Except Err (List Byte × List Event)
  | [] => .ok (f, [])
  | blk :: rest =>
      match u.read (blk.2 - blk.1) blk.1 with
      | .error e => .error e
      | .ok block_data =>
          match Cacher.spliceLoop u (writeAt f blk.1 block_data) rest with
          | .error e => .error e
          | .ok (f2, ev) =>
              .ok (f2, Event.originRead (blk.2 - blk.1) blk.1 ::
                       Event.writeData blk.1 block_data.length :: ev)

/-- `Cacher.update_cached_data`: return immediately when there is nothing to
read; otherwise open `cache.data` in update mode (failing if absent) and run
the fetch-and-splice loop. -/
def Cacher.update_cached_data (c : Cacher) (u : UnderlyingFs)
    (blocks_to_read : List Rng) : Except Err (Cacher × List Event) :=
  if blocks_to_read.isEmpty then .ok (c, [])
  else
    match c.entry.data with
    | none => .error .noEnt
    | some f =>
        match Cacher.spliceLoop u f blocks_to_read with
        | .error e => .error e
        | .ok (f2, ev) =>
            .ok ({ c with entry := { c.entry with data := some f2 } }, ev)

/-- `Cacher.read`: ensure the sparse file exists, drop the range set when
`force_reload` is set, compute the uncovered portions of
`Range(offset, offset + size)`, fetch and splice them, persist the merged
range set, and return `size` bytes at `offset` from `cache.data`. -/
def Cacher.read (c : Cacher) (u : UnderlyingFs) (size offset : Nat)
    (force_reload : Bool) : Except Err (List Byte × Cacher × List Event) :=
  match Cacher.init_cached_data c u with
  | .error e => .error e
  | .ok (c1, ev1) =>
      match (if force_reload then Cacher.remove_cached_blocks c1
             else .ok (c1, [])) with
      | .error e => .error e
      | .ok (c2, ev2) =>
          let cached_blocks := Cacher.get_cached_blocks c2
          match mkRange offset (offset + size) with
          | .error e => .error e
          | .ok q =>
              let blocks_to_read := get_uncovered_portions cached_blocks q.1 q.2
              match Cacher.update_cached_data c2 u blocks_to_read with
              | .error e => .error e
              | .ok (c3, ev3) =>
                  let p4 := Cacher.update_cached_blocks c3
                    (add_ranges cached_blocks blocks_to_read)
                  match Cacher.get_cached_data p4.1 size offset with
                  | .error e => .error e
                  | .ok result => .ok (result, p4.1, ev1 ++ ev2 ++ ev3 ++ p4.2)

/-- Modelled from the spec: error constant from `pcachefsutil` (not under
`src/`); a negative errno-style code for PermissionDenied. -/
def E_PERM_DENIED : Int := -1

/-- Modelled from the spec: error constant from `pcachefsutil` (not under
`src/`); a negative errno-style code for NotImplemented. -/
def E_NOT_IMPL : Int := -38

/-- `Cacher.write`: always NotImplemented. -/
def Cacher.write (_c : Cacher) (_buf : List Byte) (_offset : Nat) : Int :=
  E_NOT_IMPL

/-- Modelled from the spec: `is_read_only_flags` of `pcachefsutil` (not under
`src/`).  Per the spec, `open` rejects any non-read-only flag combination; a
POSIX flag word is read-only exactly when its access mode (the low two bits,
`O_ACCMODE`) is `O_RDONLY = 0`. -/
def is_read_only_flags (flags : Nat) : Bool :=
  flags % 4 == 0

/-- The synthetic control namespace (`vfs.py`, not under `src/`), viewed
through the only contract the dispatcher relies on: a membership test plus
the synthetic handlers, whose policy is the namespace's own. -/
structure VirtualFS where
  contains : String → Bool
  vopen : String → Nat → Int
  vwrite : String → List Byte → Nat → Int
  vtruncate : String → Nat → Int

/-- `PersistentCacheFs.open`: synthetic paths decide their own policy;
mirrored paths admit read-only flag combinations and reject the rest with
PermissionDenied. -/
def PersistentCacheFs.open (v : VirtualFS) (path : String) (flags : Nat) : Int :=
  if v.contains path then v.vopen path flags
  else if is_read_only_flags flags = false then E_PERM_DENIED
  else 0

/-- `PersistentCacheFs.write`: synthetic paths are dispatched to the control
namespace; mirrored paths get NotImplemented. -/
def PersistentCacheFs.write (v : VirtualFS) (path : String) (buf : List Byte)
    (offset : Nat) : Int :=
  if v.contains path then v.vwrite path buf offset
  else E_NOT_IMPL

/-- `PersistentCacheFs.truncate`: synthetic paths are dispatched to the
control namespace; mirrored paths get NotImplemented. -/
def PersistentCacheFs.truncate (v : VirtualFS) (path : String) (size : Nat) : Int :=
  if v.contains path then v.vtruncate path size
  else E_NOT_IMPL

/-- The reachable-state invariant tying a path's cache artifacts to the
(immutable) origin contents: a cached stat records the origin size, the
sparse file has the origin's length, a range blob exists only once the data
file does, is canonical, and every covered in-bounds byte of the data file
is the origin byte at the same offset. -/
def CacheInv (e : CacheEntry) (content : List Byte) : Prop :=
  (∀ st, e.stat = some st → st.st_size = content.length) ∧
  (∀ d, e.data = some d → d.length = content.length) ∧
  (∀ rb, e.dataRange = some rb → e.data ≠ none) ∧
  (∀ rb, e.dataRange = some rb → wfRanges rb = true) ∧
  (∀ rb d i, e.dataRange = some rb → e.data = some d →
      i < content.length → covers rb i = true → d[i]? = content[i]?)

/-! ### Boolean and range-set lemmas -/

theorem bool_of_iff {a b : Bool} (h : a = true ↔ b = true) : a = b := by
  cases a <;> cases b <;> simp_all

theorem covers_nil (i : Nat) : covers [] i = false := rfl

theorem covers_cons (r : Rng) (l : List Rng) (i : Nat) :
    covers (r :: l) i = (inR r i || covers l i) := rfl

/-- Every portion returned by `get_uncovered_portions` is nonempty. -/
theorem uncovered_mem_pos (s : List Rng) :
    ∀ (a b : Nat), ∀ p ∈ get_uncovered_portions s a b, p.1 < p.2 := by
  induction s with
  | nil =>
      intro a b p hp
      by_cases hab : a < b <;> simp [get_uncovered_portions, hab] at hp
      simp [hp]
      omega
  | cons hd tl ih =>
      obtain ⟨s0, e0⟩ := hd
      intro a b p hp
      by_cases h1 : b ≤ s0
      · simp [get_uncovered_portions, h1] at hp
        by_cases hab : a < b <;> simp [hab] at hp
        simp [hp]; omega
      · by_cases h2 : e0 ≤ a
        · simp [get_uncovered_portions, h1, h2] at hp
          exact ih a b p hp
        · simp [get_uncovered_portions, h1, h2] at hp
          rcases hp with hp | hp
          · by_cases has : a < s0 <;> simp [has] at hp
            simp [hp]; omega
          · exact ih e0 b p hp

/-- Completeness of `get_uncovered_portions`: every uncovered offset of the
query lies in some returned portion. -/
theorem uncovered_complete (s : List Rng) :
    ∀ (a b i : Nat), a ≤ i → i < b → covers s i = false →
      ∃ p ∈ get_uncovered_portions s a b, inR p i = true := by
  induction s with
  | nil =>
      intro a b i hai hib _
      have hab : a < b := by omega
      exact ⟨(a, b), by simp [get_uncovered_portions, hab],
             by simp [inR]; omega⟩
  | cons hd tl ih =>
      obtain ⟨s0, e0⟩ := hd
      intro a b i hai hib hnc
      rw [covers_cons, Bool.or_eq_false_iff] at hnc
      obtain ⟨hnc1, hnc2⟩ := hnc
      by_cases h1 : b ≤ s0
      · have hab : a < b := by omega
        exact ⟨(a, b), by simp [get_uncovered_portions, h1, hab],
               by simp [inR]; omega⟩
      · by_cases h2 : e0 ≤ a
        · obtain ⟨p, hp, hin⟩ := ih a b i hai hib hnc2
          exact ⟨p, by simp [get_uncovered_portions, h1, h2]; exact hp, hin⟩
        · by_cases hi0 : i < s0
          · have has : a < s0 := by omega
            refine ⟨(a, s0), ?_, by simp [inR]; omega⟩
            simp [get_uncovered_portions, h1, h2, has]
          · have hie : e0 ≤ i := by
              simp [inR] at hnc1
              omega
            obtain ⟨p, hp, hin⟩ := ih e0 b i hie hib hnc2
            refine ⟨p, ?_, hin⟩
            simp [get_uncovered_portions, h1, h2]
            right
            exact hp

theorem wfFrom_mono {lb lb' : Nat} (s : List Rng) (h : wfFrom lb s = true)
    (hle : lb' ≤ lb) : wfFrom lb' s = true := by
  cases s with
  | nil => rfl
  | cons r rest =>
      simp only [wfFrom, Bool.and_eq_true, decide_eq_true_eq] at h ⊢
      exact ⟨⟨by omega, h.1.2⟩, h.2⟩

theorem covers_of_lt_lb (s : List Rng) :
    ∀ (lb i : Nat), wfFrom lb s = true → i < lb → covers s i = false := by
  induction s with
  | nil => intro lb i _ _; rfl
  | cons r rest ih =>
      intro lb i hwf hi
      simp only [wfFrom, Bool.and_eq_true, decide_eq_true_eq] at hwf
      obtain ⟨⟨hlb, hr⟩, hrest⟩ := hwf
      rw [covers_cons, Bool.or_eq_false_iff]
      constructor
      · simp [inR]; omega
      · exact ih (r.2 + 1) i hrest (by omega)

/-- Soundness of `get_uncovered_portions` on canonical sets: every offset of
a returned portion lies in the query and is uncovered. -/
theorem uncovered_sound (s : List Rng) :
    ∀ (lb a b : Nat), wfFrom lb s = true →
      ∀ p ∈ get_uncovered_portions s a b, ∀ i, inR p i = true →
        a ≤ i ∧ i < b ∧ covers s i = false := by
  induction s with
  | nil =>
      intro lb a b _ p hp i hin
      by_cases hab : a < b <;> simp [get_uncovered_portions, hab] at hp
      subst hp
      simp [inR] at hin
      exact ⟨hin.1, hin.2, rfl⟩
  | cons hd tl ih =>
      obtain ⟨s0, e0⟩ := hd
      intro lb a b hwf p hp i hin
      simp only [wfFrom, Bool.and_eq_true, decide_eq_true_eq] at hwf
      obtain ⟨⟨hlb, hse⟩, hrest⟩ := hwf
      by_cases h1 : b ≤ s0
      · simp [get_uncovered_portions, h1] at hp
        by_cases hab : a < b <;> simp [hab] at hp
        subst hp
        simp [inR] at hin
        refine ⟨hin.1, hin.2, ?_⟩
        rw [covers_cons, Bool.or_eq_false_iff]
        refine ⟨by simp [inR]; omega, ?_⟩
        exact covers_of_lt_lb tl (e0 + 1) i hrest (by omega)
      · by_cases h2 : e0 ≤ a
        · simp [get_uncovered_portions, h1, h2] at hp
          obtain ⟨ha, hb, hc⟩ := ih (e0 + 1) a b hrest p hp i hin
          refine ⟨ha, hb, ?_⟩
          rw [covers_cons, Bool.or_eq_false_iff]
          exact ⟨by simp [inR]; omega, hc⟩
        · simp [get_uncovered_portions, h1, h2] at hp
          rcases hp with hp | hp
          · by_cases has : a < s0 <;> simp [has] at hp
            subst hp
            simp [inR] at hin
            refine ⟨hin.1, by omega, ?_⟩
            rw [covers_cons, Bool.or_eq_false_iff]
            refine ⟨by simp [inR]; omega, ?_⟩
            exact covers_of_lt_lb tl (e0 + 1) i hrest (by omega)
          · obtain ⟨ha, hb, hc⟩ := ih (e0 + 1) e0 b hrest p hp i hin
            refine ⟨by omega, hb, ?_⟩
            rw [covers_cons, Bool.or_eq_false_iff]
            exact ⟨by simp [inR]; omega, hc⟩

/-- A fully covered query has no uncovered portions. -/
theorem uncovered_nil_of_covered (s : List Rng) (a b : Nat)
    (hwf : wfRanges s = true)
    (hcov : ∀ i, a ≤ i → i < b → covers s i = true) :
    get_uncovered_portions s a b = [] := by
  cases hu : get_uncovered_portions s a b with
  | nil => rfl
  | cons p t =>
      have hpos : p.1 < p.2 := uncovered_mem_pos s a b p (by simp [hu])
      have hin : inR p p.1 = true := by simp [inR]; omega
      have h := uncovered_sound s 0 a b hwf p (by simp [hu]) p.1 hin
      rw [hcov p.1 h.1 h.2.1] at h
      simp at h

theorem inR_merge (s0 e0 : Nat) (r : Rng) (i : Nat) (h1 : ¬ r.2 < s0)
    (h2 : ¬ e0 < r.1) :
    inR (min s0 r.1, max e0 r.2) i = (inR (s0, e0) i || inR r i) := by
  apply bool_of_iff
  simp only [inR, Bool.and_eq_true, Bool.or_eq_true, decide_eq_true_eq]
  omega

/-- Adding a range covers exactly the old offsets plus the new range. -/
theorem covers_addRange (l : List Rng) :
    ∀ (r : Rng) (i : Nat), covers (addRange l r) i = (covers l i || inR r i) := by
  induction l with
  | nil =>
      intro r i
      simp [addRange, covers_cons, covers_nil]
  | cons hd tl ih =>
      obtain ⟨s0, e0⟩ := hd
      intro r i
      simp only [addRange]
      by_cases h1 : r.2 < s0
      · simp only [h1, if_true]
        apply bool_of_iff
        simp only [covers_cons, Bool.or_eq_true]
        tauto
      · by_cases h2 : e0 < r.1
        · simp only [h1, h2, if_false, if_true]
          apply bool_of_iff
          simp only [covers_cons, ih, Bool.or_eq_true]
          tauto
        · simp only [h1, h2, if_false]
          rw [ih, inR_merge s0 e0 r i h1 h2]
          apply bool_of_iff
          simp only [covers_cons, Bool.or_eq_true]
          tauto

theorem covers_add_ranges (rs : List Rng) :
    ∀ (s : List Rng) (i : Nat),
      covers (add_ranges s rs) i = (covers s i || rs.any (fun r => inR r i)) := by
  induction rs with
  | nil => intro s i; simp [add_ranges]
  | cons r rest ih =>
      intro s i
      have hstep : add_ranges s (r :: rest) = add_ranges (addRange s r) rest := rfl
      rw [hstep, ih, covers_addRange]
      apply bool_of_iff
      simp only [Bool.or_eq_true, List.any_cons]
      tauto

theorem wfFrom_addRange (l : List Rng) :
    ∀ (r : Rng) (lb : Nat), wfFrom lb l = true → r.1 < r.2 →
      wfFrom (min lb r.1) (addRange l r) = true := by
  induction l with
  | nil =>
      intro r lb _ hr
      simp only [addRange, wfFrom, Bool.and_eq_true, decide_eq_true_eq]
      exact ⟨⟨by omega, hr⟩, trivial⟩
  | cons hd tl ih =>
      obtain ⟨s0, e0⟩ := hd
      intro r lb hwf hr
      simp only [wfFrom, Bool.and_eq_true, decide_eq_true_eq] at hwf
      obtain ⟨⟨hlb, hse⟩, hrest⟩ := hwf
      simp only [addRange]
      by_cases h1 : r.2 < s0
      · simp only [h1, if_true]
        simp only [wfFrom, Bool.and_eq_true, decide_eq_true_eq]
        exact ⟨⟨by omega, hr⟩, ⟨⟨by omega, hse⟩, hrest⟩⟩
      · by_cases h2 : e0 < r.1
        · simp only [h1, h2, if_false, if_true]
          simp only [wfFrom, Bool.and_eq_true, decide_eq_true_eq]
          refine ⟨⟨by omega, hse⟩, ?_⟩
          have h3 := ih r (e0 + 1) hrest hr
          have h4 : min (e0 + 1) r.1 = e0 + 1 := by omega
          rwa [h4] at h3
        · simp only [h1, h2, if_false]
          have hr' : (min s0 r.1, max e0 r.2).1 < (min s0 r.1, max e0 r.2).2 := by
            simp
            omega
          have h3 := ih (min s0 r.1, max e0 r.2) (e0 + 1) hrest hr'
          apply wfFrom_mono _ h3
          simp
          omega

theorem wfRanges_addRange (l : List Rng) (r : Rng) (hwf : wfRanges l = true)
    (hr : r.1 < r.2) : wfRanges (addRange l r) = true := by
  have h := wfFrom_addRange l r 0 hwf hr
  exact wfFrom_mono _ h (by omega)

theorem wfRanges_add_ranges (rs : List Rng) :
    ∀ (s : List Rng), wfRanges s = true → (∀ r ∈ rs, r.1 < r.2) →
      wfRanges (add_ranges s rs) = true := by
  induction rs with
  | nil => intro s hwf _; exact hwf
  | cons r rest ih =>
      intro s hwf hrs
      have hstep : add_ranges s (r :: rest) = add_ranges (addRange s r) rest := rfl
      rw [hstep]
      exact ih (addRange s r) (wfRanges_addRange s r hwf (hrs r (by simp)))
        (fun x hx => hrs x (by simp [hx]))

/-! ### File-operation lemmas -/

theorem getElem?_fileRead (f : List Byte) (size offset j : Nat) :
    (fileRead f size offset)[j]? = if j < size then f[offset + j]? else none := by
  simp [fileRead, List.getElem?_take, List.getElem?_drop]

theorem length_fileRead (f : List Byte) (size offset : Nat) :
    (fileRead f size offset).length = min size (f.length - offset) := by
  simp [fileRead]

theorem fileRead_congr (f g : List Byte) (size offset : Nat)
    (h : ∀ i, offset ≤ i → i < offset + size → f[i]? = g[i]?) :
    fileRead f size offset = fileRead g size offset := by
  apply List.ext_getElem?
  intro j
  rw [getElem?_fileRead, getElem?_fileRead]
  split
  · exact h (offset + j) (by omega) (by omega)
  · rfl

theorem length_writeAt (f data : List Byte) (pos : Nat)
    (h : data.length = 0 ∨ pos + data.length ≤ f.length) :
    (writeAt f pos data).length = f.length := by
  by_cases hd : data.isEmpty
  · simp [writeAt, hd]
  · have hdlen : data.length ≠ 0 := by
      cases data <;> simp_all
    have h2 : pos + data.length ≤ f.length := by
      rcases h with h | h
      · omega
      · exact h
    simp only [writeAt, hd, if_false, padTo]
    simp [List.length_append, List.length_take, List.length_drop,
          List.length_replicate]
    omega

theorem getElem?_writeAt (f data : List Byte) (pos i : Nat)
    (h : data.length = 0 ∨ pos + data.length ≤ f.length) :
    (writeAt f pos data)[i]? =
      if pos ≤ i ∧ i < pos + data.length then data[i - pos]? else f[i]? := by
  by_cases hd : data.isEmpty
  · have hdnil : data = [] := by cases data <;> simp_all
    subst hdnil
    have hc : ¬(pos ≤ i ∧ i < pos + ([] : List Byte).length) := by
      simp only [List.length_nil]
      omega
    rw [if_neg hc]
    simp [writeAt]
  · have hdlen : data.length ≠ 0 := by
      cases data <;> simp_all
    have h2 : pos + data.length ≤ f.length := by
      rcases h with h | h
      · omega
      · exact h
    have hposf : pos ≤ f.length := by omega
    have hpad : padTo f pos = f := by
      simp [padTo]
      omega
    have hA : ((padTo f pos).take pos).length = pos := by
      rw [hpad]
      simp [List.length_take]
      omega
    unfold writeAt
    rw [if_neg hd]
    have hAB : (List.take pos (padTo f pos) ++ data).length = pos + data.length := by
      rw [List.length_append, hA]
    rw [List.getElem?_append, hAB]
    by_cases hc1 : i < pos
    · rw [if_pos (by omega), List.getElem?_append, hA, if_pos hc1, hpad,
          List.getElem?_take, if_pos hc1, if_neg (by omega)]
    · by_cases hc2 : i < pos + data.length
      · rw [if_pos hc2, List.getElem?_append, hA, if_neg hc1, if_pos (by omega)]
      · rw [if_neg hc2, if_neg (by omega), List.getElem?_drop]
        congr 1
        omega

theorem length_init_file (n : Nat) (h : 0 < n) :
    (writeAt [] (n - 1) [0]).length = n := by
  simp [writeAt, padTo, List.length_append, List.length_replicate,
        List.length_take]
  omega

/-! ### Splice loop and update lemmas -/

theorem spliceLoop_spec (u : UnderlyingFs) (content : List Byte)
    (hu : u.file = some content) :
    ∀ (blocks : List Rng) (f : List Byte), f.length = content.length →
      ∃ f2 ev, Cacher.spliceLoop u f blocks = .ok (f2, ev) ∧
        f2.length = content.length ∧
        (∀ i, f2[i]? =
          if blocks.any (fun b => inR b i) = true ∧ i < content.length
          then content[i]? else f[i]?) ∧
        (∀ x ∈ ev, x.isOriginRead = true ∨ x.isWriteData = true) := by
  intro blocks
  induction blocks with
  | nil =>
      intro f hf
      exact ⟨f, [], rfl, hf, by simp, by simp⟩
  | cons blk rest ih =>
      intro f hf
      have hread : u.read (blk.2 - blk.1) blk.1 =
          .ok (fileRead content (blk.2 - blk.1) blk.1) := by
        simp [UnderlyingFs.read, hu]
      set bd := fileRead content (blk.2 - blk.1) blk.1 with hbd
      have hbdlen : bd.length = min (blk.2 - blk.1) (content.length - blk.1) :=
        length_fileRead content (blk.2 - blk.1) blk.1
      have hcond : bd.length = 0 ∨ blk.1 + bd.length ≤ f.length := by
        rw [hf]
        omega
      have hf1 : (writeAt f blk.1 bd).length = content.length := by
        rw [length_writeAt f bd blk.1 hcond, hf]
      obtain ⟨f2, ev, heq, hlen, hget, hev⟩ := ih (writeAt f blk.1 bd) hf1
      refine ⟨f2, Event.originRead (blk.2 - blk.1) blk.1 ::
              Event.writeData blk.1 bd.length :: ev, ?_, hlen, ?_, ?_⟩
      · simp [Cacher.spliceLoop, hread, heq]
      · intro i
        rw [hget i, getElem?_writeAt f bd blk.1 i hcond]
        by_cases hilen : i < content.length
        · by_cases hrest : (rest.any fun b => inR b i) = true
          · have hC : ((blk :: rest).any fun b => inR b i) = true := by
              simp [List.any_cons, hrest]
            rw [if_pos ⟨hrest, hilen⟩, if_pos ⟨hC, hilen⟩]
          · have hA : ¬((rest.any fun b => inR b i) = true ∧ i < content.length) :=
              fun hc => hrest hc.1
            rw [if_neg hA]
            by_cases hin : inR blk i = true
            · have h1 : blk.1 ≤ i ∧ i < blk.2 := by
                simp only [inR, Bool.and_eq_true, decide_eq_true_eq] at hin
                exact hin
              have h2 : blk.1 ≤ i ∧ i < blk.1 + bd.length := ⟨h1.1, by omega⟩
              have hC : ((blk :: rest).any fun b => inR b i) = true := by
                simp [List.any_cons, hin]
              rw [if_pos h2, if_pos ⟨hC, hilen⟩, hbd, getElem?_fileRead,
                  if_pos (by omega)]
              congr 1
              omega
            · have h1 : ¬(blk.1 ≤ i ∧ i < blk.2) := by
                simp only [inR, Bool.and_eq_true, decide_eq_true_eq] at hin
                exact hin
              have h2 : ¬(blk.1 ≤ i ∧ i < blk.1 + bd.length) := by omega
              have hC : ¬(((blk :: rest).any fun b => inR b i) = true ∧
                  i < content.length) := by
                intro hc
                have hc1 := hc.1
                simp only [List.any_cons, Bool.or_eq_true] at hc1
                rcases hc1 with hc1 | hc1
                · exact hin hc1
                · exact hrest hc1
              rw [if_neg h2, if_neg hC]
        · have hA : ¬((rest.any fun b => inR b i) = true ∧ i < content.length) :=
            fun hc => hilen hc.2
          have h2 : ¬(blk.1 ≤ i ∧ i < blk.1 + bd.length) := by omega
          have hC : ¬(((blk :: rest).any fun b => inR b i) = true ∧
              i < content.length) :=
            fun hc => hilen hc.2
          rw [if_neg hA, if_neg h2, if_neg hC]
      · intro x hx
        simp only [List.mem_cons] at hx
        rcases hx with hx | hx | hx
        · subst hx; left; rfl
        · subst hx; right; rfl
        · exact hev x hx

theorem cacher_set_data_self (c : Cacher) (f : List Byte)
    (h : c.entry.data = some f) :
    { c with entry := { c.entry with data := some f } } = c := by
  obtain ⟨⟨d, r, s, l⟩, m⟩ := c
  simp only [CacheEntry.mk.injEq] at h ⊢
  simp_all

theorem cacher_set_range_self (c : Cacher) (rb : List Rng)
    (h : c.entry.dataRange = some rb) :
    { c with entry := { c.entry with dataRange := some rb } } = c := by
  obtain ⟨⟨d, r, s, l⟩, m⟩ := c
  simp_all

/-- Successful `update_cached_data` yields the same state with only the data
file changed, pointwise as the splice loop dictates. -/
theorem update_cached_data_ok (c : Cacher) (u : UnderlyingFs)
    (content f : List Byte) (blocks : List Rng)
    (hu : u.file = some content) (hf : c.entry.data = some f)
    (hlen : f.length = content.length) :
    ∃ f2 ev, Cacher.update_cached_data c u blocks =
        .ok ({ c with entry := { c.entry with data := some f2 } }, ev) ∧
      f2.length = content.length ∧
      (∀ i, f2[i]? =
        if blocks.any (fun b => inR b i) = true ∧ i < content.length
        then content[i]? else f[i]?) ∧
      (∀ x ∈ ev, x.isOriginRead = true ∨ x.isWriteData = true) := by
  by_cases hb : blocks.isEmpty
  · have hbnil : blocks = [] := by cases blocks <;> simp_all
    subst hbnil
    refine ⟨f, [], ?_, hlen, by simp, by simp⟩
    rw [cacher_set_data_self c f hf]
    simp [Cacher.update_cached_data]
  · obtain ⟨f2, ev, heq, hl, hg, he⟩ := spliceLoop_spec u content hu blocks f hlen
    refine ⟨f2, ev, ?_, hl, hg, he⟩
    unfold Cacher.update_cached_data
    rw [if_neg hb]
    simp only [hf, heq]

/-! ### Initialization lemmas -/

theorem mkRange_pos (offset size : Nat) (h : 0 < size) :
    mkRange offset (offset + size) = .ok (offset, offset + size) := by
  unfold mkRange
  rw [if_neg (by omega)]

/-- Successful `init_cached_data` preserves the range blob, the listing blob
and the cache-only flag, ensures a data file exists, preserves the state
invariant, and performs no data splice, no range write and no origin read. -/
theorem init_cached_data_inv (c : Cacher) (u : UnderlyingFs)
    (content : List Byte) (hu : u.file = some content)
    (hinv : CacheInv c.entry content) (hlen : 0 < content.length) :
    ∃ c1 ev1, Cacher.init_cached_data c u = .ok (c1, ev1) ∧
      c1.entry.dataRange = c.entry.dataRange ∧
      c1.cache_only_mode = c.cache_only_mode ∧
      CacheInv c1.entry content ∧ c1.entry.data ≠ none ∧
      (∀ x ∈ ev1, x.isWriteData = false ∧ x.isWriteRanges = false ∧
        x.isOriginRead = false) := by
  obtain ⟨hstat, hdata, hdr, hwf, hagree⟩ := hinv
  cases hd : c.entry.data with
  | some d =>
      refine ⟨c, [], ?_, rfl, rfl, ⟨hstat, hdata, hdr, hwf, hagree⟩,
              by simp [hd], by simp⟩
      simp [Cacher.init_cached_data, hd]
  | none =>
      have hdrnone : c.entry.dataRange = none := by
        cases hdr2 : c.entry.dataRange with
        | none => rfl
        | some rb => exact absurd hd (hdr rb hdr2)
      cases hst : c.entry.stat with
      | some st =>
          have hsz : st.st_size = content.length := hstat st hst
          refine ⟨{ c with entry := { c.entry with
                     data := some (writeAt [] (st.st_size - 1) [0]) } },
                  [Event.extendData], ?_, rfl, rfl, ?_, by simp,
                  by simp [Event.isWriteData, Event.isWriteRanges, Event.isOriginRead]⟩
          · have hcond : ¬(st.st_size = 0) := by omega
            unfold Cacher.init_cached_data Cacher.getattr
            rw [hd, hst]
            simp only []
            rw [if_neg hcond]
            simp
          · refine ⟨?_, ?_, ?_, ?_, ?_⟩
            · intro st2 h2
              simp only at h2
              rw [hst] at h2
              cases h2
              exact hsz
            · intro d2 h2
              simp only at h2
              cases h2
              rw [hsz]
              exact length_init_file content.length hlen
            · intro rb h2
              simp only at h2
              rw [hdrnone] at h2
              cases h2
            · intro rb h2
              simp only at h2
              rw [hdrnone] at h2
              cases h2
            · intro rb d2 i h2
              simp only at h2
              rw [hdrnone] at h2
              cases h2
      | none =>
          have hget : u.getattr = some ⟨content.length⟩ := by
            simp [UnderlyingFs.getattr, hu]
          refine ⟨{ c with entry := { c.entry with
                     stat := some ⟨content.length⟩,
                     data := some (writeAt [] (content.length - 1) [0]) } },
                  [Event.originGetattr, Event.writeStat, Event.extendData],
                  ?_, rfl, rfl, ?_, by simp,
                  by simp [Event.isWriteData, Event.isWriteRanges, Event.isOriginRead]⟩
          · have hcond : ¬((⟨content.length⟩ : FuseStat).st_size = 0) := by
              show ¬(content.length = 0)
              omega
            unfold Cacher.init_cached_data Cacher.getattr
            rw [hd, hst, hget]
            simp only []
            rw [if_neg hcond]
            simp
          · refine ⟨?_, ?_, ?_, ?_, ?_⟩
            · intro st2 h2
              simp only at h2
              cases h2
              rfl
            · intro d2 h2
              simp only at h2
              cases h2
              exact length_init_file content.length (by omega)
            · intro rb h2
              simp only at h2
              rw [hdrnone] at h2
              cases h2
            · intro rb h2
              simp only at h2
              rw [hdrnone] at h2
              cases h2
            · intro rb d2 i h2
              simp only at h2
              rw [hdrnone] at h2
              cases h2

theorem init_noop (c : Cacher) (u : UnderlyingFs) (d : List Byte)
    (hd : c.entry.data = some d) :
    Cacher.init_cached_data c u = .ok (c, []) := by
  unfold Cacher.init_cached_data
  rw [hd]

/-- Evaluation of `Cacher.read` without `force_reload`, given the results of
its two fallible sub-steps. -/
theorem read_eval (c : Cacher) (u : UnderlyingFs) (size offset : Nat)
    (c1 : Cacher) (ev1 : List Event) (f2 : List Byte) (ev3 : List Event)
    (hinit : Cacher.init_cached_data c u = .ok (c1, ev1))
    (hsz : 0 < size)
    (hupd : Cacher.update_cached_data c1 u
        (get_uncovered_portions (Cacher.get_cached_blocks c1) offset
          (offset + size)) =
      .ok ({ c1 with entry := { c1.entry with data := some f2 } }, ev3)) :
    Cacher.read c u size offset false =
      .ok (fileRead f2 size offset,
           { c1 with entry := { c1.entry with
               data := some f2,
               dataRange := some (add_ranges (Cacher.get_cached_blocks c1)
                 (get_uncovered_portions (Cacher.get_cached_blocks c1) offset
                   (offset + size))) } },
           ev1 ++ [] ++ ev3 ++ [Event.writeRanges]) := by
  unfold Cacher.read
  rw [hinit]
  simp only [Bool.false_eq_true, if_false]
  rw [mkRange_pos offset size hsz]
  simp only []
  rw [hupd]
  simp only [Cacher.update_cached_blocks, Cacher.get_cached_data]

/-- C1 core: under the state invariant, `read` returns exactly the origin
bytes at `[offset, min(offset + size, size(F)))`. -/
theorem read_returns_origin_bytes (c : Cacher) (u : UnderlyingFs)
    (content : List Byte) (size offset : Nat)
    (hu : u.file = some content) (hinv : CacheInv c.entry content)
    (hoff : offset < content.length) (hsz : 0 < size) :
    ∃ c' tr, Cacher.read c u size offset false =
      .ok (fileRead content size offset, c', tr) := by
  have hlen : 0 < content.length := by omega
  obtain ⟨c1, ev1, hinit, hdr1, _, hinv1, hdne, _⟩ :=
    init_cached_data_inv c u content hu hinv hlen
  obtain ⟨hstat1, hdata1, hdr1w, hwf1, hagree1⟩ := hinv1
  obtain ⟨d, hd⟩ : ∃ d, c1.entry.data = some d := by
    cases h : c1.entry.data with
    | none => exact absurd h hdne
    | some d => exact ⟨d, rfl⟩
  have hdlen : d.length = content.length := hdata1 d hd
  obtain ⟨f2, ev3, hupd, hf2len, hf2get, _⟩ :=
    update_cached_data_ok c1 u content d
      (get_uncovered_portions (Cacher.get_cached_blocks c1) offset
        (offset + size)) hu hd hdlen
  have hcovered : ∀ i, i < content.length →
      covers (Cacher.get_cached_blocks c1) i = true → d[i]? = content[i]? := by
    intro i hi hc
    cases hrb : c1.entry.dataRange with
    | none =>
        unfold Cacher.get_cached_blocks at hc
        rw [hrb] at hc
        cases hc
    | some rb =>
        have hrbeq : Cacher.get_cached_blocks c1 = rb := by
          unfold Cacher.get_cached_blocks
          rw [hrb]
        rw [hrbeq] at hc
        exact hagree1 rb d i hrb hd hi hc
  have hpoint : ∀ i, offset ≤ i → i < offset + size → f2[i]? = content[i]? := by
    intro i h1 h2
    rw [hf2get i]
    by_cases hilen : i < content.length
    · by_cases hany : ((get_uncovered_portions (Cacher.get_cached_blocks c1)
          offset (offset + size)).any fun b => inR b i) = true
      · rw [if_pos ⟨hany, hilen⟩]
      · rw [if_neg (fun hc => hany hc.1)]
        by_cases hcov : covers (Cacher.get_cached_blocks c1) i = true
        · exact hcovered i hilen hcov
        · obtain ⟨p, hp, hpin⟩ := uncovered_complete
            (Cacher.get_cached_blocks c1) offset (offset + size) i h1 h2
            (by simpa using hcov)
          exact absurd (List.any_eq_true.2 ⟨p, hp, hpin⟩) hany
    · rw [if_neg (fun hc => hilen hc.2)]
      have hnone1 : d[i]? = none := List.getElem?_eq_none (by omega)
      have hnone2 : content[i]? = none := List.getElem?_eq_none (by omega)
      rw [hnone1, hnone2]
  have hres : fileRead f2 size offset = fileRead content size offset :=
    fileRead_congr f2 content size offset (fun i h1 h2 => hpoint i h1 h2)
  refine ⟨{ c1 with entry := { c1.entry with
      data := some f2,
      dataRange := some (add_ranges (Cacher.get_cached_blocks c1)
        (get_uncovered_portions (Cacher.get_cached_blocks c1) offset
          (offset + size))) } },
    ev1 ++ [] ++ ev3 ++ [Event.writeRanges], ?_⟩
  rw [read_eval c u size offset c1 ev1 f2 ev3 hinit hsz hupd, hres]

/-- Cache artifacts all absent: a never-touched path. -/
def cacheEmpty : CacheEntry := ⟨none, none, none, none⟩

/-- A `Cacher` on a fresh path, cache-only mode off. -/
def cFresh : Cacher := ⟨cacheEmpty, false⟩

/-- An origin file of three bytes. -/
def uABC : UnderlyingFs := ⟨some [10, 20, 30], some [], false⟩

theorem read_returns_origin_bytes_witness :
    ∃ c' tr, Cacher.read cFresh uABC 2 1 false =
      .ok (fileRead [10, 20, 30] 2 1, c', tr) :=
  read_returns_origin_bytes cFresh uABC [10, 20, 30] 2 1 rfl
    (by simp [CacheInv, cFresh, cacheEmpty]) (by decide) (by decide)

/-! ### Shape lemmas for arbitrary successful runs -/

theorem getattr_shape (c : Cacher) (u : UnderlyingFs) (st : FuseStat)
    (cg : Cacher) (evg : List Event)
    (h : Cacher.getattr c u = .ok (st, cg, evg)) :
    cg.entry.dataRange = c.entry.dataRange ∧ cg.entry.data = c.entry.data ∧
    (∀ x ∈ evg, x.isWriteData = false ∧ x.isWriteRanges = false ∧
      x.isOriginRead = false) := by
  unfold Cacher.getattr at h
  cases hs : c.entry.stat with
  | some st0 =>
      rw [hs] at h
      simp only [Except.ok.injEq, Prod.mk.injEq] at h
      obtain ⟨-, h2, h3⟩ := h
      subst h2
      subst h3
      exact ⟨rfl, rfl, by simp⟩
  | none =>
      rw [hs] at h
      cases hg : u.getattr with
      | none => rw [hg] at h; simp at h
      | some st1 =>
          rw [hg] at h
          simp only [Except.ok.injEq, Prod.mk.injEq] at h
          obtain ⟨-, h2, h3⟩ := h
          subst h2
          subst h3
          refine ⟨rfl, rfl, ?_⟩
          simp [Event.isWriteData, Event.isWriteRanges, Event.isOriginRead]

theorem init_shape (c : Cacher) (u : UnderlyingFs) (c1 : Cacher)
    (ev1 : List Event) (h : Cacher.init_cached_data c u = .ok (c1, ev1)) :
    c1.entry.dataRange = c.entry.dataRange ∧ c1.entry.data ≠ none ∧
    (∀ x ∈ ev1, x.isWriteData = false ∧ x.isWriteRanges = false ∧
      x.isOriginRead = false) := by
  unfold Cacher.init_cached_data at h
  cases hd : c.entry.data with
  | some d =>
      rw [hd] at h
      simp only [Except.ok.injEq, Prod.mk.injEq] at h
      obtain ⟨h1, h2⟩ := h
      subst h1
      subst h2
      exact ⟨rfl, by simp [hd], by simp⟩
  | none =>
      rw [hd] at h
      cases hg : Cacher.getattr c u with
      | error e => rw [hg] at h; simp at h
      | ok p =>
          obtain ⟨st, cg, evg⟩ := p
          rw [hg] at h
          simp only [] at h
          obtain ⟨hgdr, hgd, hgev⟩ := getattr_shape c u st cg evg hg
          by_cases hz : st.st_size = 0
          · rw [if_pos hz] at h; simp at h
          · rw [if_neg hz] at h
            simp only [Except.ok.injEq, Prod.mk.injEq] at h
            obtain ⟨h1, h2⟩ := h
            subst h1
            subst h2
            refine ⟨hgdr, by simp, ?_⟩
            intro x hx
            simp only [List.mem_append, List.mem_singleton] at hx
            rcases hx with hx | hx
            · exact hgev x hx
            · subst hx; exact ⟨rfl, rfl, rfl⟩

theorem remove_shape (c : Cacher) (c2 : Cacher) (ev2 : List Event)
    (h : Cacher.remove_cached_blocks c = .ok (c2, ev2)) :
    c2.entry.dataRange = none ∧ c2.entry.data = c.entry.data ∧
    ev2 = [Event.removeRanges] := by
  unfold Cacher.remove_cached_blocks at h
  cases hr : c.entry.dataRange with
  | none => rw [hr] at h; simp at h
  | some rb =>
      rw [hr] at h
      simp only [Except.ok.injEq, Prod.mk.injEq] at h
      obtain ⟨h1, h2⟩ := h
      subst h1
      subst h2
      exact ⟨rfl, rfl, rfl⟩

theorem spliceLoop_events (u : UnderlyingFs) :
    ∀ (blocks : List Rng) (f f2 : List Byte) (ev : List Event),
      Cacher.spliceLoop u f blocks = .ok (f2, ev) →
      ∀ x ∈ ev, x.isOriginRead = true ∨ x.isWriteData = true := by
  intro blocks
  induction blocks with
  | nil =>
      intro f f2 ev h
      unfold Cacher.spliceLoop at h
      simp only [Except.ok.injEq, Prod.mk.injEq] at h
      obtain ⟨-, h2⟩ := h
      subst h2
      simp
  | cons blk rest ih =>
      intro f f2 ev h
      unfold Cacher.spliceLoop at h
      cases hr : u.read (blk.2 - blk.1) blk.1 with
      | error e => rw [hr] at h; simp at h
      | ok bd =>
          rw [hr] at h
          simp only [] at h
          cases hs : Cacher.spliceLoop u (writeAt f blk.1 bd) rest with
          | error e => rw [hs] at h; simp at h
          | ok p =>
              obtain ⟨f3, ev3⟩ := p
              rw [hs] at h
              simp only [Except.ok.injEq, Prod.mk.injEq] at h
              obtain ⟨-, h2⟩ := h
              subst h2
              intro x hx
              simp only [List.mem_cons] at hx
              rcases hx with hx | hx | hx
              · subst hx; left; rfl
              · subst hx; right; rfl
              · exact ih (writeAt f blk.1 bd) f3 ev3 hs x hx

theorem update_shape (c : Cacher) (u : UnderlyingFs) (blocks : List Rng)
    (c3 : Cacher) (ev3 : List Event)
    (h : Cacher.update_cached_data c u blocks = .ok (c3, ev3)) :
    c3.entry.dataRange = c.entry.dataRange ∧ c3.entry.data ≠ none ∨
      c3 = c ∧ ev3 = [] := by
  unfold Cacher.update_cached_data at h
  by_cases hb : blocks.isEmpty
  · rw [if_pos hb] at h
    simp only [Except.ok.injEq, Prod.mk.injEq] at h
    right
    exact ⟨h.1.symm, h.2.symm⟩
  · rw [if_neg hb] at h
    cases hd : c.entry.data with
    | none => rw [hd] at h; simp at h
    | some f =>
        rw [hd] at h
        simp only [] at h
        cases hs : Cacher.spliceLoop u f blocks with
        | error e => rw [hs] at h; simp at h
        | ok p =>
            obtain ⟨f2, ev⟩ := p
            rw [hs] at h
            simp only [Except.ok.injEq, Prod.mk.injEq] at h
            obtain ⟨h1, h2⟩ := h
            subst h1
            left
            exact ⟨rfl, by simp⟩

theorem update_events (c : Cacher) (u : UnderlyingFs) (blocks : List Rng)
    (c3 : Cacher) (ev3 : List Event)
    (h : Cacher.update_cached_data c u blocks = .ok (c3, ev3)) :
    ∀ x ∈ ev3, x.isOriginRead = true ∨ x.isWriteData = true := by
  unfold Cacher.update_cached_data at h
  by_cases hb : blocks.isEmpty
  · rw [if_pos hb] at h
    simp only [Except.ok.injEq, Prod.mk.injEq] at h
    obtain ⟨-, h2⟩ := h
    subst h2
    simp
  · rw [if_neg hb] at h
    cases hd : c.entry.data with
    | none => rw [hd] at h; simp at h
    | some f =>
        rw [hd] at h
        simp only [] at h
        cases hs : Cacher.spliceLoop u f blocks with
        | error e => rw [hs] at h; simp at h
        | ok p =>
            obtain ⟨f2, ev⟩ := p
            rw [hs] at h
            simp only [Except.ok.injEq, Prod.mk.injEq] at h
            obtain ⟨-, h2⟩ := h
            subst h2
            exact spliceLoop_events u blocks f f2 ev hs

theorem update_data_shape (c : Cacher) (u : UnderlyingFs) (blocks : List Rng)
    (c3 : Cacher) (ev3 : List Event)
    (h : Cacher.update_cached_data c u blocks = .ok (c3, ev3)) :
    c3.entry.dataRange = c.entry.dataRange ∧
    (c.entry.data ≠ none → c3.entry.data ≠ none) := by
  rcases update_shape c u blocks c3 ev3 h with ⟨h1, h2⟩ | ⟨h1, -⟩
  · exact ⟨h1, fun _ => h2⟩
  · subst h1
    exact ⟨rfl, fun hx => hx⟩

theorem blocks_of_dataRange (c1 c : Cacher)
    (h : c1.entry.dataRange = c.entry.dataRange) :
    Cacher.get_cached_blocks c1 = Cacher.get_cached_blocks c := by
  unfold Cacher.get_cached_blocks
  rw [h]

/-- Dissection of any successful `Cacher.read`: the trace decomposes into a
prefix without data or range-set writes, a fetch-and-splice segment, and a
final range-set write; the final state's range blob is the old blocks plus
the uncovered portions of the unclamped request range. -/
theorem read_ok_dissect (c : Cacher) (u : UnderlyingFs) (size offset : Nat)
    (fr : Bool) (res : List Byte) (c' : Cacher) (tr : List Event)
    (h : Cacher.read c u size offset fr = .ok (res, c', tr)) :
    ∃ c2 pre mid f2,
      tr = pre ++ mid ++ [Event.writeRanges] ∧
      (∀ x ∈ pre, x.isWriteData = false ∧ x.isWriteRanges = false) ∧
      (∀ x ∈ mid, x.isOriginRead = true ∨ x.isWriteData = true) ∧
      0 < size ∧
      c'.entry.data = some f2 ∧ res = fileRead f2 size offset ∧
      c'.entry.dataRange = some (add_ranges (Cacher.get_cached_blocks c2)
        (get_uncovered_portions (Cacher.get_cached_blocks c2) offset
          (offset + size))) ∧
      (fr = false →
        Cacher.get_cached_blocks c2 = Cacher.get_cached_blocks c) ∧
      (c.entry.data ≠ none → ∀ x ∈ pre, x.isExtendData = false) := by
  unfold Cacher.read at h
  cases hinit : Cacher.init_cached_data c u with
  | error e => rw [hinit] at h; simp at h
  | ok p1 =>
    obtain ⟨c1, ev1⟩ := p1
    rw [hinit] at h
    obtain ⟨hdr1, -, hev1⟩ := init_shape c u c1 ev1 hinit
    simp only [] at h
    cases hfrc : (if fr = true then Cacher.remove_cached_blocks c1
        else Except.ok (c1, [])) with
    | error e => rw [hfrc] at h; simp at h
    | ok p2 =>
      obtain ⟨c2, ev2⟩ := p2
      rw [hfrc] at h
      have hev2 : ∀ x ∈ ev2, x.isWriteData = false ∧ x.isWriteRanges = false ∧
          x.isExtendData = false := by
        cases fr with
        | false =>
            simp only [Bool.false_eq_true, if_false, Except.ok.injEq,
                       Prod.mk.injEq] at hfrc
            obtain ⟨-, h2⟩ := hfrc
            subst h2
            simp
        | true =>
            simp only [if_pos rfl] at hfrc
            obtain ⟨-, -, hev⟩ := remove_shape c1 c2 ev2 hfrc
            subst hev
            simp [Event.isWriteData, Event.isWriteRanges, Event.isExtendData]
      have hc2c : fr = false →
          Cacher.get_cached_blocks c2 = Cacher.get_cached_blocks c := by
        intro hf
        subst hf
        simp only [Bool.false_eq_true, if_false, Except.ok.injEq,
                   Prod.mk.injEq] at hfrc
        obtain ⟨h1, -⟩ := hfrc
        subst h1
        exact blocks_of_dataRange c1 c hdr1
      simp only [] at h
      cases hq : mkRange offset (offset + size) with
      | error e => rw [hq] at h; simp at h
      | ok q =>
        have hqprop : q = (offset, offset + size) ∧ 0 < size := by
          unfold mkRange at hq
          by_cases hc : offset + size ≤ offset
          · rw [if_pos hc] at hq; simp at hq
          · rw [if_neg hc] at hq
            simp only [Except.ok.injEq] at hq
            exact ⟨hq.symm, by omega⟩
        obtain ⟨hq1, hsz⟩ := hqprop
        subst hq1
        rw [hq] at h
        simp only [] at h
        cases hupd : Cacher.update_cached_data c2 u
            (get_uncovered_portions (Cacher.get_cached_blocks c2) offset
              (offset + size)) with
        | error e => rw [hupd] at h; simp at h
        | ok p3 =>
          obtain ⟨c3, ev3⟩ := p3
          rw [hupd] at h
          have hev3 := update_events c2 u _ c3 ev3 hupd
          simp only [Cacher.update_cached_blocks, Cacher.get_cached_data] at h
          cases hd3 : c3.entry.data with
          | none => rw [hd3] at h; simp at h
          | some f2 =>
            rw [hd3] at h
            simp only [Except.ok.injEq, Prod.mk.injEq] at h
            obtain ⟨hres, hc', htr⟩ := h
            refine ⟨c2, ev1 ++ ev2, ev3, f2, ?_, ?_, hev3, hsz, ?_, hres.symm,
                    ?_, hc2c, ?_⟩
            · rw [← htr]
            · intro x hx
              simp only [List.mem_append] at hx
              rcases hx with hx | hx
              · exact ⟨(hev1 x hx).1, (hev1 x hx).2.1⟩
              · exact ⟨(hev2 x hx).1, (hev2 x hx).2.1⟩
            · rw [← hc']
            · rw [← hc']
            · intro hdne x hx
              have hev1nil : ev1 = [] := by
                cases hdc : c.entry.data with
                | none => exact absurd hdc hdne
                | some d =>
                    rw [init_noop c u d hdc] at hinit
                    simp only [Except.ok.injEq, Prod.mk.injEq] at hinit
                    exact hinit.2.symm
              subst hev1nil
              simp only [List.nil_append] at hx
              exact (hev2 x hx).2.2

/-- Evaluation of `Cacher.read` with `force_reload`, given the results of its
fallible sub-steps. -/
theorem read_eval_force (c : Cacher) (u : UnderlyingFs) (size offset : Nat)
    (c1 : Cacher) (ev1 : List Event) (c2 : Cacher) (ev2 : List Event)
    (f2 : List Byte) (ev3 : List Event)
    (hinit : Cacher.init_cached_data c u = .ok (c1, ev1))
    (hrem : Cacher.remove_cached_blocks c1 = .ok (c2, ev2))
    (hsz : 0 < size)
    (hupd : Cacher.update_cached_data c2 u
        (get_uncovered_portions (Cacher.get_cached_blocks c2) offset
          (offset + size)) =
      .ok ({ c2 with entry := { c2.entry with data := some f2 } }, ev3)) :
    Cacher.read c u size offset true =
      .ok (fileRead f2 size offset,
           { c2 with entry := { c2.entry with
               data := some f2,
               dataRange := some (add_ranges (Cacher.get_cached_blocks c2)
                 (get_uncovered_portions (Cacher.get_cached_blocks c2) offset
                   (offset + size))) } },
           ev1 ++ ev2 ++ ev3 ++ [Event.writeRanges]) := by
  unfold Cacher.read
  rw [hinit]
  simp only [eq_self_iff_true, if_true]
  rw [hrem]
  simp only []
  rw [mkRange_pos offset size hsz]
  simp only []
  rw [hupd]
  simp only [Cacher.update_cached_blocks, Cacher.get_cached_data]

/-! ### Claim theorems -/

/-- A two-byte origin file. -/
def uTwo : UnderlyingFs := ⟨some [10, 20], some [], false⟩

/-- An origin directory with a single entry. -/
def uDir : UnderlyingFs := ⟨none, some ["a"], true⟩

/-- The cache state after `read(size := 5, offset := 0)` of the two-byte
origin on a fresh path: the whole requested range was merged although only
two bytes exist. -/
def cShort : Cacher := ⟨⟨some [10, 20], some [(0, 5)], some ⟨2⟩, none⟩, false⟩

/-- C2 (code bug): the `cache_only_mode` flag the constructor documents
("the cacher will fail if any requests are made for data that does not exist
in the cache") is never consulted.  With the flag enabled and nothing cached,
`getattr` still stats the origin and persists `cache.stat`, `readdir` still
lists the origin and persists `cache.list`, and `read` still fetches from the
origin — none of them fails with a cache miss. -/
theorem cache_only_mode_is_ignored :
    (Cacher.getattr (Cacher.cache_only_mode_enable cFresh) uTwo =
      .ok (⟨2⟩, ⟨⟨none, none, some ⟨2⟩, none⟩, true⟩,
           [Event.originGetattr, Event.writeStat])) ∧
    (Cacher.readdir (Cacher.cache_only_mode_enable cFresh) uDir 0 =
      .ok ([".", "..", "a"], ⟨⟨none, none, none, some [".", "..", "a"]⟩, true⟩,
           [Event.originReaddir, Event.writeList])) ∧
    (Cacher.read (Cacher.cache_only_mode_enable cFresh) uTwo 2 0 false =
      .ok ([10, 20], ⟨⟨some [10, 20], some [(0, 2)], some ⟨2⟩, none⟩, true⟩,
           [Event.originGetattr, Event.writeStat, Event.extendData,
            Event.originRead 2 0, Event.writeData 0 2, Event.writeRanges])) :=
  ⟨rfl, rfl, rfl⟩

/-- C3 counterexample: `read` does not clamp the request to the file size.
Reading 5 bytes at offset 0 of a 2-byte origin persists the range `[0, 5)`,
which does not lie within `[0, stat.size) = [0, 2)`. -/
theorem read_does_not_clamp_counterexample :
    Cacher.read cFresh uTwo 5 0 false =
      .ok ([10, 20], cShort,
           [Event.originGetattr, Event.writeStat, Event.extendData,
            Event.originRead 5 0, Event.writeData 0 2, Event.writeRanges]) ∧
    cShort.entry.stat = some ⟨2⟩ ∧
    cShort.entry.dataRange = some [(0, 5)] ∧
    ¬(((0, 5) : Rng).2 ≤ (2 : Nat)) :=
  ⟨rfl, rfl, rfl, by decide⟩

/-- C3 amended: `read` passes the unclamped range `[offset, offset + size)`
to `get_uncovered_portions` and persists the old blocks merged with its
uncovered portions; a request extending past end of file therefore leaves a
persisted range reaching `offset + size` beyond `stat.size`, and the
`[0, stat.size)` invariant holds only for requests that stay within
bounds. -/
theorem read_unclamped_range (c : Cacher) (u : UnderlyingFs)
    (size offset : Nat) (res : List Byte) (c' : Cacher) (tr : List Event)
    (h : Cacher.read c u size offset false = .ok (res, c', tr)) :
    c'.entry.dataRange = some (add_ranges (Cacher.get_cached_blocks c)
      (get_uncovered_portions (Cacher.get_cached_blocks c) offset
        (offset + size))) := by
  obtain ⟨c2, pre, mid, f2, -, -, -, -, -, -, hdr, hblocks, -⟩ :=
    read_ok_dissect c u size offset false res c' tr h
  rw [hblocks rfl] at hdr
  exact hdr

theorem read_unclamped_range_witness :
    cShort.entry.dataRange = some (add_ranges (Cacher.get_cached_blocks cFresh)
      (get_uncovered_portions (Cacher.get_cached_blocks cFresh) 0 (0 + 5))) :=
  read_unclamped_range cFresh uTwo 5 0 [10, 20] cShort
    [Event.originGetattr, Event.writeStat, Event.extendData,
     Event.originRead 5 0, Event.writeData 0 2, Event.writeRanges] rfl

/-- C4: within a single successful `read`, the durable writes happen in
strict order — the trace is a prefix containing no data splice and no
range-set write (sparse-file extension and bookkeeping only), then a
fetch-and-splice segment containing no extension and no range-set write,
then exactly one range-set write as the final event before returning; and
the extension happens only on first touch (never when `cache.data` already
exists). -/
theorem read_durable_write_order (c : Cacher) (u : UnderlyingFs)
    (size offset : Nat) (fr : Bool) (res : List Byte) (c' : Cacher)
    (tr : List Event)
    (h : Cacher.read c u size offset fr = .ok (res, c', tr)) :
    ∃ pre mid, tr = pre ++ mid ++ [Event.writeRanges] ∧
      (∀ x ∈ pre, x.isWriteData = false ∧ x.isWriteRanges = false) ∧
      (∀ x ∈ mid, x.isExtendData = false ∧ x.isWriteRanges = false) ∧
      (c.entry.data ≠ none → ∀ x ∈ pre, x.isExtendData = false) := by
  obtain ⟨c2, pre, mid, f2, htr, hpre, hmid, -, -, -, -, -, hext⟩ :=
    read_ok_dissect c u size offset fr res c' tr h
  refine ⟨pre, mid, htr, hpre, ?_, hext⟩
  intro x hx
  rcases hmid x hx with hx1 | hx1 <;> cases x <;>
    simp_all [Event.isOriginRead, Event.isWriteData, Event.isExtendData,
              Event.isWriteRanges]

theorem read_durable_write_order_witness :
    ∃ pre mid,
      ([Event.originGetattr, Event.writeStat, Event.extendData,
        Event.originRead 2 0, Event.writeData 0 2, Event.writeRanges] :
          List Event) = pre ++ mid ++ [Event.writeRanges] ∧
      (∀ x ∈ pre, x.isWriteData = false ∧ x.isWriteRanges = false) ∧
      (∀ x ∈ mid, x.isExtendData = false ∧ x.isWriteRanges = false) ∧
      (cFresh.entry.data ≠ none → ∀ x ∈ pre, x.isExtendData = false) :=
  read_durable_write_order cFresh uTwo 2 0 false [10, 20]
    ⟨⟨some [10, 20], some [(0, 2)], some ⟨2⟩, none⟩, false⟩
    [Event.originGetattr, Event.writeStat, Event.extendData,
     Event.originRead 2 0, Event.writeData 0 2, Event.writeRanges] rfl

/-- C5 counterexample: reading 5 bytes at offset 0 of a 2-byte origin fetches
the sub-range `[0, 5)` from the origin, which returns only 2 bytes (the
trace records `writeData 0 2`), yet the persisted range set is `{[0, 5)}` —
the missing tail `[2, 5)` is marked covered although it was never written —
and the subsequent identical read performs no origin fetch at all (its trace
is just the range-set rewrite). -/
theorem partial_fetch_full_merge_counterexample :
    Cacher.read cFresh uTwo 5 0 false =
      .ok ([10, 20], cShort,
           [Event.originGetattr, Event.writeStat, Event.extendData,
            Event.originRead 5 0, Event.writeData 0 2, Event.writeRanges]) ∧
    cShort.entry.dataRange = some [(0, 5)] ∧
    covers [(0, 5)] 3 = true ∧
    Cacher.read cShort uTwo 5 0 false =
      .ok ([10, 20], cShort, [Event.writeRanges]) :=
  ⟨rfl, rfl, rfl, rfl⟩

/-- C5 amended: after any successful `read` (including one whose origin
fetch came back short), the entire requested range `[offset, offset + size)`
is covered by the persisted range set, and a subsequent identical read
performs no origin fetch and no data write — its whole trace is the single
range-set rewrite.  The missing tail of a short fetch is never
re-attempted. -/
theorem short_fetch_merges_whole_range (c : Cacher) (u : UnderlyingFs)
    (size offset : Nat) (res : List Byte) (c' : Cacher) (tr : List Event)
    (hwf : wfRanges (Cacher.get_cached_blocks c) = true)
    (h : Cacher.read c u size offset false = .ok (res, c', tr)) :
    (∀ i, offset ≤ i → i < offset + size →
      covers (Cacher.get_cached_blocks c') i = true) ∧
    ∃ res2 c2, Cacher.read c' u size offset false =
      .ok (res2, c2, [Event.writeRanges]) := by
  obtain ⟨c2, pre, mid, f2, -, -, -, hsz, hd', -, hdr, hblocks, -⟩ :=
    read_ok_dissect c u size offset false res c' tr h
  rw [hblocks rfl] at hdr
  have hgb' : Cacher.get_cached_blocks c' =
      add_ranges (Cacher.get_cached_blocks c)
        (get_uncovered_portions (Cacher.get_cached_blocks c) offset
          (offset + size)) := by
    unfold Cacher.get_cached_blocks
    rw [hdr]
    rfl
  have hcov' : ∀ i, offset ≤ i → i < offset + size →
      covers (Cacher.get_cached_blocks c') i = true := by
    intro i h1 h2
    rw [hgb', covers_add_ranges]
    by_cases hc : covers (Cacher.get_cached_blocks c) i = true
    · rw [hc]
      rfl
    · obtain ⟨p, hp, hpin⟩ := uncovered_complete (Cacher.get_cached_blocks c)
        offset (offset + size) i h1 h2 (by simpa using hc)
      rw [List.any_eq_true.2 ⟨p, hp, hpin⟩]
      simp
  refine ⟨hcov', ?_⟩
  have hwf' : wfRanges (Cacher.get_cached_blocks c') = true := by
    rw [hgb']
    exact wfRanges_add_ranges _ _ hwf
      (fun r hr => uncovered_mem_pos (Cacher.get_cached_blocks c) offset
        (offset + size) r hr)
  have hblocks2 : get_uncovered_portions (Cacher.get_cached_blocks c') offset
      (offset + size) = [] :=
    uncovered_nil_of_covered _ _ _ hwf' hcov'
  have hupd2 : Cacher.update_cached_data c' u
      (get_uncovered_portions (Cacher.get_cached_blocks c') offset
        (offset + size)) =
      .ok ({ c' with entry := { c'.entry with data := some f2 } }, []) := by
    rw [hblocks2, cacher_set_data_self c' f2 hd']
    simp [Cacher.update_cached_data]
  exact ⟨_, _, read_eval c' u size offset c' [] f2 []
    (init_noop c' u f2 hd') hsz hupd2⟩

theorem short_fetch_merges_whole_range_witness :
    (∀ i, 0 ≤ i → i < 0 + 5 →
      covers (Cacher.get_cached_blocks cShort) i = true) ∧
    ∃ res2 c2, Cacher.read cShort uTwo 5 0 false =
      .ok (res2, c2, [Event.writeRanges]) :=
  short_fetch_merges_whole_range cFresh uTwo 5 0 [10, 20] cShort
    [Event.originGetattr, Event.writeStat, Event.extendData,
     Event.originRead 5 0, Event.writeData 0 2, Event.writeRanges]
    (by decide) rfl

/-- C6: the cached stat and the cached directory listing are write-once.
Once `cache.stat` exists, `getattr` returns exactly its stored contents with
no origin call, no write and no state change, whatever the origin now
contains; likewise `readdir` with `cache.list`.  And whenever either
operation succeeds, the corresponding blob afterwards holds exactly the
returned value, so all later calls keep returning it. -/
theorem stat_and_list_blobs_write_once (c : Cacher) (offset : Nat) :
    (∀ st, c.entry.stat = some st →
      ∀ u, Cacher.getattr c u = .ok (st, c, [])) ∧
    (∀ l, c.entry.list = some l →
      ∀ u, Cacher.readdir c u offset = .ok (l, c, [])) ∧
    (∀ u st c1 ev, Cacher.getattr c u = .ok (st, c1, ev) →
      c1.entry.stat = some st) ∧
    (∀ u l c1 ev, Cacher.readdir c u offset = .ok (l, c1, ev) →
      c1.entry.list = some l) := by
  refine ⟨?_, ?_, ?_, ?_⟩
  · intro st hst u
    unfold Cacher.getattr
    rw [hst]
  · intro l hl u
    unfold Cacher.readdir
    rw [hl]
  · intro u st c1 ev h
    unfold Cacher.getattr at h
    cases hs : c.entry.stat with
    | some st0 =>
        rw [hs] at h
        simp only [Except.ok.injEq, Prod.mk.injEq] at h
        obtain ⟨h1, h2, -⟩ := h
        subst h1
        subst h2
        exact hs
    | none =>
        rw [hs] at h
        cases hg : u.getattr with
        | none => rw [hg] at h; simp at h
        | some st1 =>
            rw [hg] at h
            simp only [Except.ok.injEq, Prod.mk.injEq] at h
            obtain ⟨h1, h2, -⟩ := h
            subst h1
            subst h2
            rfl
  · intro u l c1 ev h
    unfold Cacher.readdir at h
    cases hs : c.entry.list with
    | some l0 =>
        rw [hs] at h
        simp only [Except.ok.injEq, Prod.mk.injEq] at h
        obtain ⟨h1, h2, -⟩ := h
        subst h1
        subst h2
        exact hs
    | none =>
        rw [hs] at h
        cases hg : u.readdir with
        | none => rw [hg] at h; simp at h
        | some l1 =>
            rw [hg] at h
            simp only [Except.ok.injEq, Prod.mk.injEq] at h
            obtain ⟨h1, h2, -⟩ := h
            subst h1
            subst h2
            rfl

/-- A cache state with both a stat blob and a listing blob present. -/
def cStatList : Cacher := ⟨⟨none, none, some ⟨7⟩, some ["x"]⟩, false⟩

theorem stat_and_list_blobs_write_once_witness :
    Cacher.getattr cStatList uTwo = .ok (⟨7⟩, cStatList, []) ∧
    Cacher.readdir cStatList uDir 0 = .ok (["x"], cStatList, []) ∧
    cStatList.entry.stat = some ⟨7⟩ ∧
    cStatList.entry.list = some ["x"] :=
  ⟨(stat_and_list_blobs_write_once cStatList 0).1 ⟨7⟩ rfl uTwo,
   (stat_and_list_blobs_write_once cStatList 0).2.1 ["x"] rfl uDir,
   (stat_and_list_blobs_write_once cStatList 0).2.2.1 uTwo ⟨7⟩ cStatList []
     ((stat_and_list_blobs_write_once cStatList 0).1 ⟨7⟩ rfl uTwo),
   (stat_and_list_blobs_write_once cStatList 0).2.2.2 uDir ["x"] cStatList []
     ((stat_and_list_blobs_write_once cStatList 0).2.1 ["x"] rfl uDir)⟩

/-- C7 counterexample: on a path whose `cache.data.range` blob does not
exist (any never-read path), `read` with `force_reload` fails — the
`os.remove` of the blob raises — instead of running the normal algorithm. -/
theorem force_reload_fresh_path_counterexample :
    Cacher.read cFresh uTwo 2 0 true = .error .noEnt := rfl

/-- C7 amended: on a path whose `cache.data.range` blob exists (for example
after any previous successful read) and whose `cache.data` file exists,
`read` with `force_reload` first deletes the blob and then runs the normal
algorithm with empty coverage: it issues one origin read covering the entire
request range `[offset, offset + size)` — even if that range was fully
cached — splices the returned bytes, and persists exactly
`{[offset, offset + size)}`.  On a path with no persisted range set the
deletion fails and `read` errors. -/
theorem force_reload_discards_and_refetches (c : Cacher) (u : UnderlyingFs)
    (content d : List Byte) (rb : List Rng) (size offset : Nat)
    (hrb : c.entry.dataRange = some rb) (hd : c.entry.data = some d)
    (hu : u.file = some content) (hsz : 0 < size) :
    ∃ res c', Cacher.read c u size offset true =
      .ok (res, c', [Event.removeRanges, Event.originRead size offset,
        Event.writeData offset (fileRead content size offset).length,
        Event.writeRanges]) ∧
      c'.entry.dataRange = some [(offset, offset + size)] := by
  have hrem : Cacher.remove_cached_blocks c =
      .ok ({ c with entry := { c.entry with dataRange := none } },
           [Event.removeRanges]) := by
    unfold Cacher.remove_cached_blocks
    rw [hrb]
  have hgb : Cacher.get_cached_blocks
      { c with entry := { c.entry with dataRange := none } } = [] := rfl
  have huncov : get_uncovered_portions [] offset (offset + size) =
      [(offset, offset + size)] := by
    unfold get_uncovered_portions
    rw [if_pos (by omega)]
  have hsplice : Cacher.spliceLoop u d [(offset, offset + size)] =
      .ok (writeAt d offset (fileRead content size offset),
           [Event.originRead size offset,
            Event.writeData offset (fileRead content size offset).length]) := by
    unfold Cacher.spliceLoop
    simp only [UnderlyingFs.read, hu, Nat.add_sub_cancel_left]
    unfold Cacher.spliceLoop
    simp only []
  have hupd : Cacher.update_cached_data
      { c with entry := { c.entry with dataRange := none } } u
      (get_uncovered_portions (Cacher.get_cached_blocks
        { c with entry := { c.entry with dataRange := none } }) offset
        (offset + size)) =
      .ok ({ { c with entry := { c.entry with dataRange := none } } with
              entry := { { c with entry := { c.entry with
                dataRange := none } }.entry with
                data := some (writeAt d offset
                  (fileRead content size offset)) } },
           [Event.originRead size offset,
            Event.writeData offset (fileRead content size offset).length]) := by
    rw [hgb, huncov]
    unfold Cacher.update_cached_data
    rw [if_neg (by simp)]
    simp only [hd, hsplice]
  have heval := read_eval_force c u size offset c []
    { c with entry := { c.entry with dataRange := none } }
    [Event.removeRanges] (writeAt d offset (fileRead content size offset))
    [Event.originRead size offset,
     Event.writeData offset (fileRead content size offset).length]
    (init_noop c u d hd) hrem hsz hupd
  refine ⟨fileRead (writeAt d offset (fileRead content size offset))
    size offset, _, heval, ?_⟩
  simp only []
  rw [hgb, huncov]
  rfl

theorem force_reload_discards_and_refetches_witness :
    ∃ res c', Cacher.read cShort uTwo 2 0 true =
      .ok (res, c', [Event.removeRanges, Event.originRead 2 0,
        Event.writeData 0 (fileRead [10, 20] 2 0).length,
        Event.writeRanges]) ∧
      c'.entry.dataRange = some [(0, 0 + 2)] :=
  force_reload_discards_and_refetches cShort uTwo [10, 20] [10, 20]
    [(0, 5)] 2 0 rfl rfl rfl (by decide)

/-- A zero-byte origin file. -/
def uEmpty : UnderlyingFs := ⟨some [], some [], false⟩

/-- C8 counterexample: for a zero-byte origin file the initialization seeks
to `st_size - 1 = -1`, which raises, so neither `init_cached_data` nor the
first `read` creates a usable sparse file — both fail instead of producing a
file of logical length `stat.size = 0`. -/
theorem init_zero_size_counterexample :
    Cacher.init_cached_data cFresh uEmpty = .error .seekInvalid ∧
    Cacher.read cFresh uEmpty 1 0 false = .error .seekInvalid :=
  ⟨rfl, rfl⟩

/-- C8 amended: if `cache.data` already exists, `init_cached_data` does
nothing (no event, no state change); if it does not exist and
`stat.size > 0`, it creates the file by writing a single zero byte at offset
`stat.size - 1` (intervening bytes holes), yielding logical length exactly
`stat.size` — both when the stat is already cached and when it is first
fetched from the origin.  For `stat.size = 0` the seek to `-1` fails. -/
theorem init_sparse_file_amended (c : Cacher) (u : UnderlyingFs)
    (st : FuseStat) (d content : List Byte) :
    (c.entry.data = some d → Cacher.init_cached_data c u = .ok (c, [])) ∧
    (c.entry.data = none → c.entry.stat = some st → 0 < st.st_size →
      Cacher.init_cached_data c u =
        .ok ({ c with entry := { c.entry with
                data := some (writeAt [] (st.st_size - 1) [0]) } },
             [Event.extendData]) ∧
      (writeAt [] (st.st_size - 1) [0]).length = st.st_size) ∧
    (c.entry.data = none → c.entry.stat = none → u.file = some content →
      0 < content.length →
      Cacher.init_cached_data c u =
        .ok ({ c with entry := { c.entry with
                stat := some ⟨content.length⟩,
                data := some (writeAt [] (content.length - 1) [0]) } },
             [Event.originGetattr, Event.writeStat, Event.extendData]) ∧
      (writeAt [] (content.length - 1) [0]).length = content.length) := by
  refine ⟨?_, ?_, ?_⟩
  · intro hd
    exact init_noop c u d hd
  · intro hd hst hpos
    refine ⟨?_, length_init_file st.st_size hpos⟩
    have hcond : ¬(st.st_size = 0) := by omega
    unfold Cacher.init_cached_data Cacher.getattr
    rw [hd, hst]
    simp only []
    rw [if_neg hcond]
    simp
  · intro hd hst hu hpos
    refine ⟨?_, length_init_file content.length hpos⟩
    have hget : u.getattr = some ⟨content.length⟩ := by
      simp [UnderlyingFs.getattr, hu]
    have hcond : ¬((⟨content.length⟩ : FuseStat).st_size = 0) := by
      show ¬(content.length = 0)
      omega
    unfold Cacher.init_cached_data Cacher.getattr
    rw [hd, hst, hget]
    simp only []
    rw [if_neg hcond]
    simp

/-- A cache state with only a stat blob, for a two-byte file. -/
def cStatOnly : Cacher := ⟨⟨none, none, some ⟨2⟩, none⟩, false⟩

theorem init_sparse_file_amended_witness :
    Cacher.init_cached_data cShort uTwo = .ok (cShort, []) ∧
    (Cacher.init_cached_data cStatOnly uTwo =
      .ok ({ cStatOnly with entry := { cStatOnly.entry with
              data := some (writeAt [] ((2 : Nat) - 1) [0]) } },
           [Event.extendData]) ∧
      (writeAt [] ((2 : Nat) - 1) [0]).length = 2) ∧
    (Cacher.init_cached_data cFresh uTwo =
      .ok ({ cFresh with entry := { cFresh.entry with
              stat := some ⟨[10, 20].length⟩,
              data := some (writeAt [] ([10, 20].length - 1) [0]) } },
           [Event.originGetattr, Event.writeStat, Event.extendData]) ∧
      (writeAt [] ([10, 20].length - 1) [0]).length = [10, 20].length) :=
  ⟨(init_sparse_file_amended cShort uTwo ⟨2⟩ [10, 20] [10, 20]).1 rfl,
   (init_sparse_file_amended cStatOnly uTwo ⟨2⟩ [] [10, 20]).2.1 rfl rfl
     (by decide),
   (init_sparse_file_amended cFresh uTwo ⟨2⟩ [] [10, 20]).2.2 rfl rfl rfl
     (by decide)⟩

/-- C9: on mirrored (non-synthetic) paths, `write` and `truncate` return
NotImplemented; `open` with a non-read-only flag combination returns
PermissionDenied, and `open` with read-only flags succeeds with 0. -/
theorem mirrored_write_family (v : VirtualFS) (path : String)
    (buf : List Byte) (off sz flags : Nat)
    (hm : v.contains path = false) :
    PersistentCacheFs.write v path buf off = E_NOT_IMPL ∧
    PersistentCacheFs.truncate v path sz = E_NOT_IMPL ∧
    (is_read_only_flags flags = false →
      PersistentCacheFs.open v path flags = E_PERM_DENIED) ∧
    (is_read_only_flags flags = true →
      PersistentCacheFs.open v path flags = 0) := by
  refine ⟨?_, ?_, ?_, ?_⟩
  · unfold PersistentCacheFs.write
    rw [hm]
    simp
  · unfold PersistentCacheFs.truncate
    rw [hm]
    simp
  · intro hf
    unfold PersistentCacheFs.open
    rw [hm, hf]
    simp
  · intro hf
    unfold PersistentCacheFs.open
    rw [hm, hf]
    simp

/-- A synthetic namespace containing nothing, so every path is mirrored. -/
def vNone : VirtualFS :=
  ⟨fun _ => false, fun _ _ => 0, fun _ _ _ => 0, fun _ _ => 0⟩

/-- A mirrored path used by the witness below. -/
def pathF : String := "/f"

theorem mirrored_write_family_witness :
    PersistentCacheFs.write vNone pathF [7] 0 = E_NOT_IMPL ∧
    PersistentCacheFs.truncate vNone pathF 0 = E_NOT_IMPL ∧
    PersistentCacheFs.open vNone pathF 1 = E_PERM_DENIED ∧
    PersistentCacheFs.open vNone pathF 0 = 0 :=
  ⟨(mirrored_write_family vNone pathF [7] 0 0 1 rfl).1,
   (mirrored_write_family vNone pathF [7] 0 0 1 rfl).2.1,
   (mirrored_write_family vNone pathF [7] 0 0 1 rfl).2.2.1 rfl,
   (mirrored_write_family vNone pathF [7] 0 0 0 rfl).2.2.2 rfl⟩

theorem cacher_set_both_self (c : Cacher) (d : List Byte) (rb : List Rng)
    (hd : c.entry.data = some d) (hrb : c.entry.dataRange = some rb) :
    { c with entry := { c.entry with data := some d, dataRange := some rb } }
      = c := by
  obtain ⟨⟨d0, r0, s0, l0⟩, m⟩ := c
  simp_all

/-- C10: a successful `read` whose request range is already fully covered
performs no origin call and no data write, yet still rewrites the
`cache.data.range` blob — the trace is exactly the single range-set write —
and the rewritten contents are identical (merging the empty uncovered list
leaves the set unchanged), so the state is returned unmodified. -/
theorem covered_read_rewrites_range_blob (c : Cacher) (u : UnderlyingFs)
    (rb : List Rng) (d : List Byte) (size offset : Nat)
    (hrb : c.entry.dataRange = some rb) (hwf : wfRanges rb = true)
    (hd : c.entry.data = some d) (hsz : 0 < size)
    (hcov : ∀ i, offset ≤ i → i < offset + size → covers rb i = true) :
    Cacher.read c u size offset false =
      .ok (fileRead d size offset, c, [Event.writeRanges]) ∧
    add_ranges rb (get_uncovered_portions rb offset (offset + size)) = rb := by
  have hgb : Cacher.get_cached_blocks c = rb := by
    unfold Cacher.get_cached_blocks
    rw [hrb]
  have huncov : get_uncovered_portions rb offset (offset + size) = [] :=
    uncovered_nil_of_covered rb offset (offset + size) hwf hcov
  have hupd : Cacher.update_cached_data c u
      (get_uncovered_portions (Cacher.get_cached_blocks c) offset
        (offset + size)) =
      .ok ({ c with entry := { c.entry with data := some d } }, []) := by
    rw [hgb, huncov, cacher_set_data_self c d hd]
    simp [Cacher.update_cached_data]
  have heval := read_eval c u size offset c [] d []
    (init_noop c u d hd) hsz hupd
  have hstate : ({ c with entry := { c.entry with
      data := some d,
      dataRange := some (add_ranges (Cacher.get_cached_blocks c)
        (get_uncovered_portions (Cacher.get_cached_blocks c) offset
          (offset + size))) } }) = c := by
    rw [hgb, huncov]
    exact cacher_set_both_self c d rb hd hrb
  constructor
  · rw [heval, hstate]
    rfl
  · rw [huncov]
    rfl

theorem covered_read_rewrites_range_blob_witness :
    Cacher.read cShort uTwo 2 1 false =
      .ok (fileRead [10, 20] 2 1, cShort, [Event.writeRanges]) ∧
    add_ranges [(0, 5)] (get_uncovered_portions [(0, 5)] 1 (1 + 2)) =
      [(0, 5)] :=
  covered_read_rewrites_range_blob cShort uTwo [(0, 5)] [10, 20] 2 1 rfl
    (by decide) rfl (by decide)
    (by
      intro i h1 h2
      simp [covers, inR]
      omega)
